import Mathlib

/-!
Shallow embedding of the go-multimap repository (package `setmultimap`,
file `setmultimap.go`, together with the abstract `multimap` package that
declares the `Entry` record).

The Go implementation stores a native map from keys to sets of values:
`MultiMap[K, V] struct { m map[K]Set[V] }` with `Set[V] = map[V]struct{}`.
We embed the outer Go map as an association list `List (K × Finset V)`
(Go maps have unique keys; that uniqueness is a structural guarantee of the
Go runtime, so here it appears as the `KeysNodup` predicate on states, and
lookups take the first matching entry, which coincides with the unique one
on well-formed states).  The per-key Go set `map[V]struct{}` is embedded as
a `Finset V`.  Go map iteration order is unspecified, so the flattening
views (`Keys`, `Values`, `Entries`) are embedded as multisets: exactly the
information the Go contract promises about the returned slices.
-/

namespace SetMultiMap

/-- `Entry` from the abstract multimap package: a key/value pair. -/
structure Entry (K V : Type) where
  Key : K
  Value : V
deriving DecidableEq

variable {K V : Type} [DecidableEq K] [DecidableEq V]

/-- The `MultiMap` struct: the field `m` is the Go map `map[K]Set[V]`. -/
structure MultiMap (K V : Type) where
  m : List (K × Finset V)
deriving DecidableEq

/-- Go map indexing `m.m[key]` with its `found` flag: first matching entry. -/
def mapLookup : List (K × Finset V) → K → Option (Finset V)
  | [], _ => none
  | (k', s) :: rest, k => if k' = k then some s else mapLookup rest k

/-- In-place mutation of the set stored under `key` (Go sets are reference
types, so `set[value] = exists` and `delete(set, value)` update the set the
map holds); rewrites the first matching entry by `f`. -/
def mapAdjust (f : Finset V → Finset V) : List (K × Finset V) → K → List (K × Finset V)
  | [], _ => []
  | (k', s) :: rest, k =>
      if k' = k then (k', f s) :: rest else (k', s) :: mapAdjust f rest k

/-- Go `delete(m.m, key)`: drops the (first) entry stored under `key`. -/
def mapErase : List (K × Finset V) → K → List (K × Finset V)
  | [], _ => []
  | (k', s) :: rest, k => if k' = k then rest else (k', s) :: mapErase rest k

/-- `New()` instantiates a new multimap with an empty map. -/
def New : MultiMap K V := ⟨[]⟩

/-- `Get(key)`: returns the values stored under `key` together with the
`found` flag; when the key is absent the values slice is empty and
`found` is `false`. -/
def Get (mm : MultiMap K V) (key : K) : Finset V × Bool :=
  match mapLookup mm.m key with
  | some s => (s, true)
  | none => (∅, false)

/-- `Put(key, value)`: inserts `value` into the set under `key`, creating
the set when the key is new. -/
def Put (mm : MultiMap K V) (key : K) (value : V) : MultiMap K V :=
  match mapLookup mm.m key with
  | some _ => ⟨mapAdjust (insert value) mm.m key⟩
  | none => ⟨mm.m ++ [(key, {value})]⟩

/-- `PutAll(key, values)`: `Put` for each value of the slice, in order. -/
def PutAll (mm : MultiMap K V) (key : K) (values : List V) : MultiMap K V :=
  values.foldl (fun acc v => Put acc key v) mm

/-- `Contains(key, value)`: looks up the set under `key` and, when the
value is a member, reports the `found` flag (a missing key yields the nil
set, whose membership test fails, so the answer is `false`). -/
def Contains (mm : MultiMap K V) (key : K) (value : V) : Bool :=
  match mapLookup mm.m key with
  | some s => decide (value ∈ s)
  | none => false

/-- `ContainsKey(key)`: the `found` flag of the map lookup. -/
def ContainsKey (mm : MultiMap K V) (key : K) : Bool :=
  (mapLookup mm.m key).isSome

/-- `ContainsValue(value)`: linear scan over every stored set. -/
def ContainsValue (mm : MultiMap K V) (value : V) : Bool :=
  mm.m.any (fun p => decide (value ∈ p.2))

/-- `Remove(key, value)`: deletes the value from the set under `key` when
present, then drops the key when the set it holds has become empty (a
missing key has length-0 lookup, so the final delete is a no-op then). -/
def Remove (mm : MultiMap K V) (key : K) (value : V) : MultiMap K V :=
  let l :=
    match mapLookup mm.m key with
    | some _ => mapAdjust (fun s => s.erase value) mm.m key
    | none => mm.m
  let len :=
    match mapLookup l key with
    | some s => s.card
    | none => 0
  if len = 0 then ⟨mapErase l key⟩ else ⟨l⟩

/-- `RemoveAll(key)`: `delete(m.m, key)`. -/
def RemoveAll (mm : MultiMap K V) (key : K) : MultiMap K V :=
  ⟨mapErase mm.m key⟩

/-- `Size()`: the sum of the cardinalities of all stored sets. -/
def Size (mm : MultiMap K V) : Nat :=
  (mm.m.map (fun p => p.2.card)).sum

/-- `Empty()`: `Size() == 0`. -/
def Empty (mm : MultiMap K V) : Bool :=
  Size mm == 0

/-- `Keys()`: each key once per value stored under it (no collapsing). -/
def Keys (mm : MultiMap K V) : Multiset K :=
  (mm.m.map (fun p => Multiset.replicate p.2.card p.1)).sum

/-- `KeySet()`: each distinct key of the map once. -/
def KeySet (mm : MultiMap K V) : Multiset K :=
  ↑(mm.m.map Prod.fst)

/-- `Values()`: every value of every stored set (no collapsing). -/
def Values (mm : MultiMap K V) : Multiset V :=
  (mm.m.map (fun p => p.2.val)).sum

/-- `Entries()`: one `Entry` per stored key/value pair. -/
def Entries (mm : MultiMap K V) : Multiset (Entry K V) :=
  (mm.m.map (fun p => p.2.val.map (fun v => Entry.mk p.1 v))).sum

/-- `Clear()`: replaces the map with a fresh empty one. -/
def Clear (_ : MultiMap K V) : MultiMap K V :=
  ⟨[]⟩

/-- Structural guarantee of the Go runtime: map keys are pairwise distinct. -/
def KeysNodup (mm : MultiMap K V) : Prop :=
  (mm.m.map Prod.fst).Nodup

/-- The spec invariant: every stored set is non-empty. -/
def ValueSetsNonempty (mm : MultiMap K V) : Prop :=
  ∀ p ∈ mm.m, p.2.Nonempty

/-- States reachable from the empty multimap by the public write operations. -/
inductive Reachable : MultiMap K V → Prop where
  | empty : Reachable New
  | put : ∀ {mm : MultiMap K V} (k : K) (v : V), Reachable mm → Reachable (Put mm k v)
  | putAll : ∀ {mm : MultiMap K V} (k : K) (vs : List V), Reachable mm → Reachable (PutAll mm k vs)
  | remove : ∀ {mm : MultiMap K V} (k : K) (v : V), Reachable mm → Reachable (Remove mm k v)
  | removeAll : ∀ {mm : MultiMap K V} (k : K), Reachable mm → Reachable (RemoveAll mm k)
  | clear : ∀ {mm : MultiMap K V}, Reachable mm → Reachable (Clear mm)

/-! Basic lemmas about the embedded map primitives. -/

set_option linter.unusedSectionVars false

theorem mapLookup_append_none {l : List (K × Finset V)} {k : K} (h : mapLookup l k = none)
    (s : Finset V) : mapLookup (l ++ [(k, s)]) k = some s := by
  induction l with
  | nil => simp [mapLookup]
  | cons p rest ih =>
      obtain ⟨k', s'⟩ := p
      by_cases hk : k' = k
      · simp [mapLookup, hk] at h
      · simp only [mapLookup, hk, if_neg hk, List.cons_append] at h ⊢
        exact ih h

theorem mapLookup_append_ne {l : List (K × Finset V)} {k k' : K} (h : k' ≠ k)
    (s : Finset V) : mapLookup (l ++ [(k, s)]) k' = mapLookup l k' := by
  have hne : ¬k = k' := fun hh => h hh.symm
  induction l with
  | nil => simp [mapLookup, hne]
  | cons p rest ih =>
      obtain ⟨k0, s0⟩ := p
      by_cases hk : k0 = k'
      · simp [mapLookup, hk]
      · simp [mapLookup, hk, ih]

theorem mapLookup_adjust {f : Finset V → Finset V} {l : List (K × Finset V)} {k : K} :
    mapLookup (mapAdjust f l k) k = Option.map f (mapLookup l k) := by
  induction l with
  | nil => simp [mapLookup, mapAdjust]
  | cons p rest ih =>
      obtain ⟨k', s⟩ := p
      by_cases hk : k' = k
      · simp [mapLookup, mapAdjust, hk]
      · simp [mapLookup, mapAdjust, hk, ih]

theorem mapLookup_adjust_ne {f : Finset V → Finset V} {l : List (K × Finset V)} {k k' : K}
    (h : k' ≠ k) : mapLookup (mapAdjust f l k) k' = mapLookup l k' := by
  induction l with
  | nil => simp [mapAdjust]
  | cons p rest ih =>
      obtain ⟨k0, s0⟩ := p
      by_cases hk : k0 = k
      · subst hk
        have hne : ¬k0 = k' := fun hh => h hh.symm
        simp [mapLookup, mapAdjust, hne]
      · by_cases hk' : k0 = k'
        · simp [mapLookup, mapAdjust, hk, hk', h]
        · simp [mapLookup, mapAdjust, hk, hk', ih]

theorem mapLookup_erase_ne {l : List (K × Finset V)} {k k' : K} (h : k' ≠ k) :
    mapLookup (mapErase l k) k' = mapLookup l k' := by
  induction l with
  | nil => simp [mapErase]
  | cons p rest ih =>
      obtain ⟨k0, s0⟩ := p
      by_cases hk : k0 = k
      · subst hk
        have hne : ¬k0 = k' := fun hh => h hh.symm
        simp [mapLookup, mapErase, hne, ih]
      · by_cases hk' : k0 = k'
        · simp [mapLookup, mapErase, hk, hk', h]
        · simp [mapLookup, mapErase, hk, hk', ih]

theorem mapAdjust_none {f : Finset V → Finset V} {l : List (K × Finset V)} {k : K}
    (h : mapLookup l k = none) : mapAdjust f l k = l := by
  induction l with
  | nil => simp [mapAdjust]
  | cons p rest ih =>
      obtain ⟨k', s⟩ := p
      by_cases hk : k' = k
      · simp [mapLookup, hk] at h
      · simp only [mapLookup, if_neg hk] at h
        simp [mapAdjust, hk, ih h]

theorem mapErase_none {l : List (K × Finset V)} {k : K}
    (h : mapLookup l k = none) : mapErase l k = l := by
  induction l with
  | nil => simp [mapErase]
  | cons p rest ih =>
      obtain ⟨k', s⟩ := p
      by_cases hk : k' = k
      · simp [mapLookup, hk] at h
      · simp only [mapLookup, if_neg hk] at h
        simp [mapErase, hk, ih h]

theorem mapLookup_mem {l : List (K × Finset V)} {k : K} {s : Finset V}
    (h : mapLookup l k = some s) : (k, s) ∈ l := by
  induction l with
  | nil => simp [mapLookup] at h
  | cons p rest ih =>
      obtain ⟨k', s'⟩ := p
      by_cases hk : k' = k
      · subst hk
        simp [mapLookup] at h
        rw [← h]
        exact List.mem_cons_self _ _
      · simp only [mapLookup, if_neg hk] at h
        exact List.mem_cons_of_mem _ (ih h)

theorem mem_mapAdjust {f : Finset V → Finset V} {l : List (K × Finset V)} {k : K}
    {p : K × Finset V} (h : p ∈ mapAdjust f l k) :
    p ∈ l ∨ ∃ s, mapLookup l k = some s ∧ p = (k, f s) := by
  induction l with
  | nil => simp [mapAdjust] at h
  | cons q rest ih =>
      obtain ⟨k', s'⟩ := q
      by_cases hk : k' = k
      · subst hk
        simp only [mapAdjust, if_pos rfl] at h
        rcases List.mem_cons.mp h with h | h
        · exact Or.inr ⟨s', by simp [mapLookup], h⟩
        · exact Or.inl (List.mem_cons_of_mem _ h)
      · simp only [mapAdjust, if_neg hk] at h
        rcases List.mem_cons.mp h with h | h
        · exact Or.inl (h ▸ List.mem_cons_self _ _)
        · rcases ih h with h' | ⟨s, hs, hp⟩
          · exact Or.inl (List.mem_cons_of_mem _ h')
          · exact Or.inr ⟨s, by simp [mapLookup, hk, hs], hp⟩

theorem mem_mapErase {l : List (K × Finset V)} {k : K} {p : K × Finset V}
    (h : p ∈ mapErase l k) : p ∈ l := by
  induction l with
  | nil => simp [mapErase] at h
  | cons q rest ih =>
      obtain ⟨k', s'⟩ := q
      by_cases hk : k' = k
      · simp only [mapErase, if_pos hk] at h
        exact List.mem_cons_of_mem _ h
      · simp only [mapErase, if_neg hk] at h
        rcases List.mem_cons.mp h with h | h
        · exact h ▸ List.mem_cons_self _ _
        · exact List.mem_cons_of_mem _ (ih h)

theorem mapErase_mapAdjust {f : Finset V → Finset V} {l : List (K × Finset V)} {k : K} :
    mapErase (mapAdjust f l k) k = mapErase l k := by
  induction l with
  | nil => simp [mapAdjust, mapErase]
  | cons p rest ih =>
      obtain ⟨k', s⟩ := p
      by_cases hk : k' = k
      · simp [mapAdjust, mapErase, hk]
      · simp [mapAdjust, mapErase, hk, ih]

/-- Total size of an embedded map value (the loop of Go `Size`). -/
def mapSize (l : List (K × Finset V)) : Nat :=
  (l.map (fun p => p.2.card)).sum

theorem mapSize_append (l : List (K × Finset V)) (k : K) (s : Finset V) :
    mapSize (l ++ [(k, s)]) = mapSize l + s.card := by
  simp [mapSize]

theorem mapSize_adjust {f : Finset V → Finset V} {l : List (K × Finset V)} {k : K}
    {s : Finset V} (h : mapLookup l k = some s) :
    mapSize (mapAdjust f l k) + s.card = mapSize l + (f s).card := by
  induction l with
  | nil => simp [mapLookup] at h
  | cons p rest ih =>
      obtain ⟨k', s'⟩ := p
      by_cases hk : k' = k
      · subst hk
        simp [mapLookup] at h
        rw [← h]
        simp [mapAdjust, mapSize]
        omega
      · simp only [mapLookup, if_neg hk] at h
        simp only [mapAdjust, if_neg hk, mapSize, List.map_cons, List.sum_cons]
        have := ih h
        simp only [mapSize] at this
        omega

theorem mapSize_erase {l : List (K × Finset V)} {k : K} {s : Finset V}
    (h : mapLookup l k = some s) : mapSize (mapErase l k) + s.card = mapSize l := by
  induction l with
  | nil => simp [mapLookup] at h
  | cons p rest ih =>
      obtain ⟨k', s'⟩ := p
      by_cases hk : k' = k
      · subst hk
        simp [mapLookup] at h
        rw [← h]
        simp [mapErase, mapSize, Nat.add_comm]
      · simp only [mapLookup, if_neg hk] at h
        simp only [mapErase, if_neg hk, mapSize, List.map_cons, List.sum_cons]
        have := ih h
        simp only [mapSize] at this
        omega

theorem mapLookup_none_iff {l : List (K × Finset V)} {k : K} :
    mapLookup l k = none ↔ k ∉ l.map Prod.fst := by
  induction l with
  | nil => simp [mapLookup]
  | cons p rest ih =>
      obtain ⟨k', s⟩ := p
      by_cases hk : k' = k
      · simp [mapLookup, hk]
      · have hne : ¬k = k' := fun hh => hk hh.symm
        simp [mapLookup, hk, ih, hne]

theorem keys_mapAdjust {f : Finset V → Finset V} {l : List (K × Finset V)} {k : K} :
    (mapAdjust f l k).map Prod.fst = l.map Prod.fst := by
  induction l with
  | nil => rfl
  | cons p rest ih =>
      obtain ⟨k', s⟩ := p
      by_cases hk : k' = k
      · simp [mapAdjust, hk]
      · simp [mapAdjust, hk, ih]

theorem mapLookup_erase_self {l : List (K × Finset V)} {k : K}
    (h : (l.map Prod.fst).Nodup) : mapLookup (mapErase l k) k = none := by
  induction l with
  | nil => simp [mapErase, mapLookup]
  | cons p rest ih =>
      obtain ⟨k', s⟩ := p
      simp only [List.map_cons, List.nodup_cons] at h
      by_cases hk : k' = k
      · subst hk
        simp only [mapErase, if_pos rfl]
        exact mapLookup_none_iff.mpr h.1
      · simp only [mapErase, if_neg hk, mapLookup, if_neg hk]
        exact ih h.2

theorem mapLookup_of_mem {l : List (K × Finset V)} {k : K} {s : Finset V}
    (hnd : (l.map Prod.fst).Nodup) (h : (k, s) ∈ l) : mapLookup l k = some s := by
  induction l with
  | nil => simp at h
  | cons p rest ih =>
      obtain ⟨k', s'⟩ := p
      simp only [List.map_cons, List.nodup_cons] at hnd
      rcases List.mem_cons.mp h with h | h
      · have h1 : k = k' := congrArg Prod.fst h
        have h2 : s = s' := congrArg Prod.snd h
        subst h1
        subst h2
        simp [mapLookup]
      · have hkk : k' ≠ k := by
          intro hh
          subst hh
          exact hnd.1 (List.mem_map.mpr ⟨(k', s), h, rfl⟩)
        simp only [mapLookup, if_neg hkk]
        exact ih hnd.2 h

/-! Characterizations of `Put` and `Remove` by cases on the initial lookup. -/

theorem Put_some {mm : MultiMap K V} {k : K} {s : Finset V} (v : V)
    (h : mapLookup mm.m k = some s) :
    Put mm k v = ⟨mapAdjust (insert v) mm.m k⟩ := by
  unfold Put
  rw [h]

theorem Put_none {mm : MultiMap K V} {k : K} (v : V)
    (h : mapLookup mm.m k = none) :
    Put mm k v = ⟨mm.m ++ [(k, {v})]⟩ := by
  unfold Put
  rw [h]

theorem Remove_not_found {mm : MultiMap K V} {k : K} (v : V)
    (h : mapLookup mm.m k = none) : Remove mm k v = mm := by
  unfold Remove
  rw [h]
  simp only [h, mapErase_none h]
  split <;> rfl

theorem Remove_found_last {mm : MultiMap K V} {k : K} {s : Finset V} {v : V}
    (h : mapLookup mm.m k = some s) (hc : (s.erase v).card = 0) :
    Remove mm k v = ⟨mapErase mm.m k⟩ := by
  unfold Remove
  rw [h]
  have hl : mapLookup (mapAdjust (fun t => t.erase v) mm.m k) k = some (s.erase v) := by
    rw [mapLookup_adjust, h, Option.map]
  simp only [hl]
  rw [if_pos hc, mapErase_mapAdjust]

theorem Remove_found_keep {mm : MultiMap K V} {k : K} {s : Finset V} {v : V}
    (h : mapLookup mm.m k = some s) (hc : (s.erase v).card ≠ 0) :
    Remove mm k v = ⟨mapAdjust (fun t => t.erase v) mm.m k⟩ := by
  unfold Remove
  rw [h]
  have hl : mapLookup (mapAdjust (fun t => t.erase v) mm.m k) k = some (s.erase v) := by
    rw [mapLookup_adjust, h, Option.map]
  simp only [hl]
  rw [if_neg hc]

/-! Preservation of the non-empty-value-sets invariant by every operation. -/

theorem nonempty_new : ValueSetsNonempty (New : MultiMap K V) := by
  intro p hp
  simp [New] at hp

theorem nonempty_put {mm : MultiMap K V} (h : ValueSetsNonempty mm) (k : K) (v : V) :
    ValueSetsNonempty (Put mm k v) := by
  intro p hp
  cases hl : mapLookup mm.m k with
  | some s =>
      rw [Put_some v hl] at hp
      rcases mem_mapAdjust hp with h1 | ⟨s', _, hp'⟩
      · exact h p h1
      · rw [hp']
        exact Finset.insert_nonempty v s'
  | none =>
      rw [Put_none v hl] at hp
      rcases List.mem_append.mp hp with h1 | h1
      · exact h p h1
      · simp only [List.mem_singleton] at h1
        rw [h1]
        exact Finset.singleton_nonempty v

theorem nonempty_putAll {mm : MultiMap K V} (h : ValueSetsNonempty mm) (k : K)
    (vs : List V) : ValueSetsNonempty (PutAll mm k vs) := by
  induction vs generalizing mm with
  | nil => exact h
  | cons v rest ih =>
      show ValueSetsNonempty (PutAll (Put mm k v) k rest)
      exact ih (nonempty_put h k v)

theorem nonempty_remove {mm : MultiMap K V} (h : ValueSetsNonempty mm) (k : K) (v : V) :
    ValueSetsNonempty (Remove mm k v) := by
  intro p hp
  cases hl : mapLookup mm.m k with
  | none =>
      rw [Remove_not_found v hl] at hp
      exact h p hp
  | some s =>
      by_cases hc : (s.erase v).card = 0
      · rw [Remove_found_last hl hc] at hp
        exact h p (mem_mapErase hp)
      · rw [Remove_found_keep hl hc] at hp
        rcases mem_mapAdjust hp with h1 | ⟨s', hs', hp'⟩
        · exact h p h1
        · rw [hp']
          rw [hl] at hs'
          cases hs'
          exact Finset.card_pos.mp (Nat.pos_of_ne_zero hc)

theorem nonempty_removeAll {mm : MultiMap K V} (h : ValueSetsNonempty mm) (k : K) :
    ValueSetsNonempty (RemoveAll mm k) := by
  intro p hp
  exact h p (mem_mapErase hp)

theorem nonempty_clear (mm : MultiMap K V) : ValueSetsNonempty (Clear mm) := by
  intro p hp
  simp [Clear] at hp

theorem reachable_nonempty {mm : MultiMap K V} (h : Reachable mm) :
    ValueSetsNonempty mm := by
  induction h with
  | empty => exact nonempty_new
  | put k v _ ih => exact nonempty_put ih k v
  | putAll k vs _ ih => exact nonempty_putAll ih k vs
  | remove k v _ ih => exact nonempty_remove ih k v
  | removeAll k _ ih => exact nonempty_removeAll ih k
  | clear _ ih => exact nonempty_clear _

theorem mapSize_eq_zero {l : List (K × Finset V)}
    (h : ∀ p ∈ l, Finset.Nonempty p.2) : mapSize l = 0 ↔ l = [] := by
  induction l with
  | nil => simp [mapSize]
  | cons p rest ih =>
      have hp : p.2.card ≠ 0 := by
        have := h p (List.mem_cons_self _ _)
        exact Finset.card_ne_zero_of_mem this.choose_spec
      simp only [mapSize, List.map_cons, List.sum_cons]
      constructor
      · intro hz
        exact absurd (Nat.eq_zero_of_add_eq_zero_right hz) hp
      · intro hz
        simp at hz

/-! Lengths of the flattening views. -/

theorem Size_eq_mapSize (mm : MultiMap K V) : Size mm = mapSize mm.m := rfl

theorem keys_card_aux (l : List (K × Finset V)) :
    Multiset.card ((l.map (fun p => Multiset.replicate p.2.card p.1)).sum) = mapSize l := by
  induction l with
  | nil => rfl
  | cons p rest ih => simp [mapSize, Multiset.card_replicate, ih, mapSize] at *

theorem values_card_aux (l : List (K × Finset V)) :
    Multiset.card ((l.map (fun p => p.2.val)).sum) = mapSize l := by
  induction l with
  | nil => rfl
  | cons p rest ih => simp [mapSize, ih, mapSize] at *

theorem entries_card_aux (l : List (K × Finset V)) :
    Multiset.card ((l.map (fun p => p.2.val.map (fun v => Entry.mk p.1 v))).sum) =
      mapSize l := by
  induction l with
  | nil => rfl
  | cons p rest ih => simp [mapSize, ih, mapSize] at *

/-! Interaction of adjust/erase with appending a fresh key, and commutation
of consecutive `Put` calls on the same key. -/

theorem mapAdjust_append {f : Finset V → Finset V} {l : List (K × Finset V)} {k : K}
    (h : mapLookup l k = none) (s : Finset V) :
    mapAdjust f (l ++ [(k, s)]) k = l ++ [(k, f s)] := by
  induction l with
  | nil => simp [mapAdjust]
  | cons p rest ih =>
      obtain ⟨k', s'⟩ := p
      by_cases hk : k' = k
      · simp [mapLookup, hk] at h
      · simp only [mapLookup, if_neg hk] at h
        simp [mapAdjust, hk, ih h]

theorem mapErase_append {l : List (K × Finset V)} {k : K}
    (h : mapLookup l k = none) (s : Finset V) :
    mapErase (l ++ [(k, s)]) k = l := by
  induction l with
  | nil => simp [mapErase]
  | cons p rest ih =>
      obtain ⟨k', s'⟩ := p
      by_cases hk : k' = k
      · simp [mapLookup, hk] at h
      · simp only [mapLookup, if_neg hk] at h
        simp [mapErase, hk, ih h]

theorem mapAdjust_mapAdjust {f g : Finset V → Finset V} {l : List (K × Finset V)} {k : K} :
    mapAdjust f (mapAdjust g l k) k = mapAdjust (fun s => f (g s)) l k := by
  induction l with
  | nil => rfl
  | cons p rest ih =>
      obtain ⟨k', s⟩ := p
      by_cases hk : k' = k
      · simp [mapAdjust, hk]
      · simp [mapAdjust, hk, ih]

theorem Put_comm (mm : MultiMap K V) (k : K) (a b : V) :
    Put (Put mm k a) k b = Put (Put mm k b) k a := by
  cases hl : mapLookup mm.m k with
  | some s =>
      rw [Put_some a hl, Put_some b hl]
      have h1 : mapLookup (mapAdjust (insert a) mm.m k) k = some (insert a s) := by
        rw [mapLookup_adjust, hl, Option.map]
      have h2 : mapLookup (mapAdjust (insert b) mm.m k) k = some (insert b s) := by
        rw [mapLookup_adjust, hl, Option.map]
      rw [Put_some b h1, Put_some a h2]
      congr 1
      rw [mapAdjust_mapAdjust, mapAdjust_mapAdjust]
      congr 1
      funext t
      exact Finset.Insert.comm b a t
  | none =>
      rw [Put_none a hl, Put_none b hl]
      have h1 : mapLookup (mm.m ++ [(k, {a})]) k = some {a} := mapLookup_append_none hl _
      have h2 : mapLookup (mm.m ++ [(k, {b})]) k = some {b} := mapLookup_append_none hl _
      rw [Put_some b h1, Put_some a h2]
      congr 1
      rw [mapAdjust_append hl, mapAdjust_append hl]
      have : insert b ({a} : Finset V) = insert a ({b} : Finset V) := Finset.Insert.comm b a ∅
      rw [this]

theorem putAll_perm_eq {vs vs' : List V} (hp : vs.Perm vs') (mm : MultiMap K V) (k : K) :
    PutAll mm k vs = PutAll mm k vs' := by
  induction hp generalizing mm with
  | nil => rfl
  | cons x _ ih => exact ih (Put mm k x)
  | swap x y l =>
      show PutAll (Put (Put mm k y) k x) k l = PutAll (Put (Put mm k x) k y) k l
      rw [Put_comm]
  | trans _ _ ih1 ih2 => exact (ih1 mm).trans (ih2 mm)

theorem erase_insert_self (v : V) (s : Finset V) :
    (insert v s).erase v = s.erase v := by
  ext x
  simp only [Finset.mem_erase, Finset.mem_insert]
  constructor
  · rintro ⟨hx, hx2 | hx2⟩
    · exact absurd hx2 hx
    · exact ⟨hx, hx2⟩
  · rintro ⟨hx, hx2⟩
    exact ⟨hx, Or.inr hx2⟩

/-! The claim theorems. -/

/-- C2: after `Put(k, v)` the pair is contained, and `Size` grows by exactly
zero when the pair was already present and by exactly one otherwise (so by
at most one, with no error conditions). -/
theorem c2_put_contains_size (mm : MultiMap K V) (k : K) (v : V) :
    Contains (Put mm k v) k v = true ∧
    Size (Put mm k v) = Size mm + (if Contains mm k v = true then 0 else 1) := by
  cases hl : mapLookup mm.m k with
  | none =>
      rw [Put_none v hl]
      have hlook : mapLookup (mm.m ++ [(k, {v})]) k = some {v} := mapLookup_append_none hl _
      have hcont : Contains mm k v = false := by simp [Contains, hl]
      constructor
      · simp [Contains, hlook]
      · rw [hcont]
        show mapSize (mm.m ++ [(k, {v})]) = Size mm + _
        rw [mapSize_append]
        simp [Size_eq_mapSize]
  | some s =>
      rw [Put_some v hl]
      have hlook : mapLookup (mapAdjust (insert v) mm.m k) k = some (insert v s) := by
        rw [mapLookup_adjust, hl, Option.map]
      have hcont : Contains mm k v = decide (v ∈ s) := by simp [Contains, hl]
      constructor
      · simp [Contains, hlook]
      · have hsz := mapSize_adjust (f := insert v) hl
        rw [hcont]
        show mapSize (mapAdjust (insert v) mm.m k) = Size mm + _
        rw [Size_eq_mapSize]
        by_cases hv : v ∈ s
        · rw [Finset.insert_eq_self.mpr hv] at hsz
          simp only [hv, decide_True, if_true]
          omega
        · rw [Finset.card_insert_of_not_mem hv] at hsz
          simp only [hv, decide_False, Bool.false_eq_true, if_false]
          omega

/-- C4: `Size` is the sum of the value-set sizes across all keys and equals
the lengths of the `Entries`, `Keys` and `Values` views. -/
theorem c4_size_view_lengths (mm : MultiMap K V) :
    Size mm = (mm.m.map (fun p => p.2.card)).sum ∧
    Multiset.card (Entries mm) = Size mm ∧
    Multiset.card (Keys mm) = Size mm ∧
    Multiset.card (Values mm) = Size mm :=
  ⟨rfl, entries_card_aux mm.m, keys_card_aux mm.m, values_card_aux mm.m⟩

/-- C6: `Get` on an absent key reports `found = false` together with the
empty value collection (absence is not a failure); on a present key it
reports `found = true` with exactly the stored value set. -/
theorem c6_get_absent_present (mm : MultiMap K V) (k : K) :
    (ContainsKey mm k = false → Get mm k = (∅, false)) ∧
    (∀ s, mapLookup mm.m k = some s → Get mm k = (s, true)) := by
  constructor
  · intro h
    cases hl : mapLookup mm.m k with
    | none => simp [Get, hl]
    | some s =>
        unfold ContainsKey at h
        rw [hl] at h
        simp at h
  · intro s hs
    simp [Get, hs]

/-- C6 witness: on the empty multimap, looking up key 1 yields the empty
set and `found = false`. -/
theorem c6_get_absent_present_witness :
    Get (New : MultiMap ℕ ℕ) 1 = (∅, false) :=
  (c6_get_absent_present New 1).1 (by decide)

/-- C10: `PutAll` with an empty slice leaves the multimap completely
unchanged: no entry is created and every observation is as before. -/
theorem c10_putAll_nil_noop (mm : MultiMap K V) (k : K) :
    PutAll mm k [] = mm ∧
    ContainsKey (PutAll mm k []) k = ContainsKey mm k ∧
    Size (PutAll mm k []) = Size mm ∧
    Get (PutAll mm k []) k = Get mm k :=
  ⟨rfl, rfl, rfl, rfl⟩

/-- C7: `Contains(k, v)` holds exactly when key `k` is present and `v` is in
its value set (so it is false whenever `k` is absent), and `ContainsValue(v)`
holds exactly when `v` appears in the value set of at least one key. -/
theorem c7_contains_iff (mm : MultiMap K V) (k : K) (v : V) (hnd : KeysNodup mm) :
    (Contains mm k v = true ↔ ContainsKey mm k = true ∧ v ∈ (Get mm k).1) ∧
    (Contains mm k v = false → ContainsKey mm k = false ∨ v ∉ (Get mm k).1) ∧
    (ContainsValue mm v = true ↔ ∃ k2, v ∈ (Get mm k2).1) := by
  refine ⟨?_, ?_, ?_, ?_⟩
  · cases hl : mapLookup mm.m k with
    | none => simp [Contains, ContainsKey, Get, hl]
    | some s => simp [Contains, ContainsKey, Get, hl]
  · intro h
    cases hl : mapLookup mm.m k with
    | none => exact Or.inl (by simp [ContainsKey, hl])
    | some s =>
        refine Or.inr ?_
        unfold Contains at h
        rw [hl] at h
        simp only [Get, hl]
        simpa using h
  · intro h
    unfold ContainsValue at h
    rcases List.any_eq_true.mp h with ⟨p, hp, hv⟩
    simp only [decide_eq_true_eq] at hv
    refine ⟨p.1, ?_⟩
    have hlk : mapLookup mm.m p.1 = some p.2 := by
      refine mapLookup_of_mem hnd ?_
      rw [Prod.mk.eta]
      exact hp
    simp [Get, hlk, hv]
  · rintro ⟨k2, hk2⟩
    cases hl : mapLookup mm.m k2 with
    | none =>
        unfold Get at hk2
        rw [hl] at hk2
        simp at hk2
    | some s =>
        unfold Get at hk2
        rw [hl] at hk2
        simp only at hk2
        unfold ContainsValue
        refine List.any_eq_true.mpr ⟨(k2, s), mapLookup_mem hl, ?_⟩
        simpa using hk2

/-- C7 witness: in the one-pair state `{1 ↦ {2}}`, `Contains(1, 2)` holds
because key 1 is present and 2 is in its set, and `ContainsValue(2)` holds. -/
theorem c7_contains_iff_witness :
    Contains (Put (New : MultiMap ℕ ℕ) 1 2) 1 2 = true ∧
    ContainsValue (Put (New : MultiMap ℕ ℕ) 1 2) 2 = true :=
  ⟨(c7_contains_iff (Put New 1 2) 1 2 (by unfold KeysNodup; decide)).1.mpr (by decide),
   (c7_contains_iff (Put New 1 2) 1 2 (by unfold KeysNodup; decide)).2.2.mpr ⟨1, by decide⟩⟩

/-- C8: `Put(k, v)` and `Remove(k, v)` modify at most the entry for `k`:
for any different key the `Get` result (values and found flag) and
`ContainsKey` are unchanged. -/
theorem c8_frame_other_keys (mm : MultiMap K V) (k : K) (v : V) (k2 : K)
    (h : k2 ≠ k) :
    Get (Put mm k v) k2 = Get mm k2 ∧
    ContainsKey (Put mm k v) k2 = ContainsKey mm k2 ∧
    Get (Remove mm k v) k2 = Get mm k2 ∧
    ContainsKey (Remove mm k v) k2 = ContainsKey mm k2 := by
  have hput : mapLookup (Put mm k v).m k2 = mapLookup mm.m k2 := by
    cases hl : mapLookup mm.m k with
    | some s =>
        rw [Put_some v hl]
        exact mapLookup_adjust_ne h
    | none =>
        rw [Put_none v hl]
        exact mapLookup_append_ne h _
  have hrem : mapLookup (Remove mm k v).m k2 = mapLookup mm.m k2 := by
    cases hl : mapLookup mm.m k with
    | none => rw [Remove_not_found v hl]
    | some s =>
        by_cases hc : (s.erase v).card = 0
        · rw [Remove_found_last hl hc]
          exact mapLookup_erase_ne h
        · rw [Remove_found_keep hl hc]
          exact mapLookup_adjust_ne h
  exact ⟨by unfold Get; rw [hput], by unfold ContainsKey; rw [hput],
    by unfold Get; rw [hrem], by unfold ContainsKey; rw [hrem]⟩

/-- C8 witness: with key 1 holding value 5, putting and removing under
key 2 leaves the observations of key 1 unchanged. -/
theorem c8_frame_other_keys_witness :
    Get (Put (Put (New : MultiMap ℕ ℕ) 1 5) 2 7) 1 = Get (Put (New : MultiMap ℕ ℕ) 1 5) 1 ∧
    Get (Remove (Put (New : MultiMap ℕ ℕ) 1 5) 2 7) 1 = Get (Put (New : MultiMap ℕ ℕ) 1 5) 1 :=
  ⟨(c8_frame_other_keys (Put New 1 5) 2 7 1 (by decide)).1,
   (c8_frame_other_keys (Put New 1 5) 2 7 1 (by decide)).2.2.1⟩

/-- C1: every state reachable from the empty multimap by the public write
operations keeps every stored key's value set non-empty, so no key is ever
reported by `ContainsKey` or `KeySet` while having zero values. -/
theorem c1_reachable_value_sets_nonempty {mm : MultiMap K V} (h : Reachable mm) :
    (∀ p ∈ mm.m, p.2.Nonempty) ∧
    (∀ k, ContainsKey mm k = true → (Get mm k).1 ≠ ∅) ∧
    (∀ k, k ∈ KeySet mm → (Get mm k).1 ≠ ∅) := by
  have hne := reachable_nonempty h
  have key : ∀ k s, mapLookup mm.m k = some s → (Get mm k).1 ≠ ∅ := by
    intro k s hl
    have hs := hne _ (mapLookup_mem hl)
    simp only [Get, hl]
    exact Finset.nonempty_iff_ne_empty.mp hs
  refine ⟨hne, ?_, ?_⟩
  · intro k hk
    cases hl : mapLookup mm.m k with
    | none =>
        unfold ContainsKey at hk
        rw [hl] at hk
        simp at hk
    | some s => exact key k s hl
  · intro k hk
    unfold KeySet at hk
    rw [Multiset.mem_coe] at hk
    cases hl : mapLookup mm.m k with
    | none => exact absurd hk (mapLookup_none_iff.mp hl)
    | some s => exact key k s hl

/-- C1 witness: the state reached by `Put(1, 2)` from empty reports key 1
with a non-empty value set. -/
theorem c1_reachable_value_sets_nonempty_witness :
    (Get (Put (New : MultiMap ℕ ℕ) 1 2) 1).1 ≠ ∅ :=
  (c1_reachable_value_sets_nonempty (Reachable.put 1 2 Reachable.empty)).2.1 1 (by decide)

/-- C9: on reachable states the membership observations agree: `ContainsKey`
matches the `found` flag of `Get`, matches the existence of a contained
value, and `Empty` holds exactly when `KeySet` is the empty collection. -/
theorem c9_membership_agree {mm : MultiMap K V} (h : Reachable mm) (k : K) :
    (ContainsKey mm k = true ↔ (Get mm k).2 = true) ∧
    (ContainsKey mm k = true ↔ ∃ v, Contains mm k v = true) ∧
    (Empty mm = true ↔ KeySet mm = 0) := by
  have hne := reachable_nonempty h
  refine ⟨?_, ⟨?_, ?_⟩, ?_⟩
  · cases hl : mapLookup mm.m k <;> simp [ContainsKey, Get, hl]
  · intro hk
    cases hl : mapLookup mm.m k with
    | none =>
        unfold ContainsKey at hk
        rw [hl] at hk
        simp at hk
    | some s =>
        obtain ⟨v, hv⟩ := hne _ (mapLookup_mem hl)
        exact ⟨v, by simp [Contains, hl, hv]⟩
  · rintro ⟨v, hv⟩
    cases hl : mapLookup mm.m k with
    | none =>
        unfold Contains at hv
        rw [hl] at hv
        simp at hv
    | some s => simp [ContainsKey, hl]
  · have hsz : Size mm = 0 ↔ mm.m = [] := mapSize_eq_zero hne
    constructor
    · intro he
      unfold Empty at he
      rw [Nat.beq_eq_true_eq] at he
      unfold KeySet
      rw [hsz.mp he]
      rfl
    · intro hks
      unfold KeySet at hks
      rw [Multiset.coe_eq_zero, List.map_eq_nil_iff] at hks
      unfold Empty
      rw [Nat.beq_eq_true_eq]
      exact hsz.mpr hks

/-- C9 witness: in the reachable state `{1 ↦ {2}}`, `ContainsKey 1` agrees
with the `found` flag of `Get 1`. -/
theorem c9_membership_agree_witness :
    ContainsKey (Put (New : MultiMap ℕ ℕ) 1 2) 1 = true ↔
      (Get (Put (New : MultiMap ℕ ℕ) 1 2) 1).2 = true :=
  (c9_membership_agree (Reachable.put 1 2 Reachable.empty) 1).1

/-- C5: `PutAll` performs `Put` for each value of the input slice in order;
the net effect is independent of the order of the input, and duplicate
values in the input collapse to a single stored pair, as in the scenario
`PutAll("a", [1,1,2])` from the empty multimap. -/
theorem c5_putAll_order_independent :
    (∀ (mm : MultiMap K V) (k : K) (vs : List V),
        PutAll mm k vs = vs.foldl (fun acc v => Put acc k v) mm) ∧
    (∀ (mm : MultiMap K V) (k : K) (vs vs' : List V),
        vs.Perm vs' → PutAll mm k vs = PutAll mm k vs') ∧
    (Get (PutAll (New : MultiMap String ℕ) "a" [1, 1, 2]) "a").1 = ({1, 2} : Finset ℕ) ∧
    (Get (PutAll (New : MultiMap String ℕ) "a" [1, 1, 2]) "a").2 = true ∧
    Size (PutAll (New : MultiMap String ℕ) "a" [1, 1, 2]) = 2 := by
  refine ⟨fun _ _ _ => rfl, fun mm k vs vs' hp => putAll_perm_eq hp mm k, ?_, ?_, ?_⟩ <;>
    decide

/-- C5 witness: the order-independence part applied to the concrete
permutation `[1, 2] ~ [2, 1]` on the empty multimap. -/
theorem c5_putAll_order_independent_witness :
    PutAll (New : MultiMap ℕ ℕ) 0 [1, 2] = PutAll (New : MultiMap ℕ ℕ) 0 [2, 1] :=
  (@c5_putAll_order_independent ℕ ℕ _ _).2.1 New 0 [1, 2] [2, 1] (by decide)

/-- C3 as stated fails on the code: in the reachable state where key 1 holds
exactly the value 2, `ContainsKey 1` is true beforehand, but `Put(1, 2)`
followed by `Remove(1, 2)` drops key 1 entirely, so `ContainsKey 1` is not
restored to its prior value. -/
theorem c3_restore_counterexample :
    ¬(ContainsKey (Remove (Put (Put (New : MultiMap ℕ ℕ) 1 2) 1 2) 1 2) 1 =
        ContainsKey (Put (New : MultiMap ℕ ℕ) 1 2) 1) := by
  decide

/-- C3 amended: on any state the Go runtime can hold (distinct map keys,
non-empty value sets), `Put(k, v)` then `Remove(k, v)` makes `Contains(k, v)`
false, and leaves `ContainsKey(k)` true exactly when `k` held some value
other than `v` beforehand; whenever the pair `(k, v)` was not already
present this restores `ContainsKey(k)` to its prior value. -/
theorem c3_put_remove_amended (mm : MultiMap K V) (k : K) (v : V)
    (hnd : KeysNodup mm) (hne : ValueSetsNonempty mm) :
    Contains (Remove (Put mm k v) k v) k v = false ∧
    (ContainsKey (Remove (Put mm k v) k v) k = true ↔
      ∃ w, w ≠ v ∧ Contains mm k w = true) ∧
    (Contains mm k v = false →
      ContainsKey (Remove (Put mm k v) k v) k = ContainsKey mm k) := by
  cases hl : mapLookup mm.m k with
  | none =>
      have hP : Put mm k v = ⟨mm.m ++ [(k, {v})]⟩ := Put_none v hl
      have hlookP : mapLookup (Put mm k v).m k = some {v} := by
        rw [hP]
        exact mapLookup_append_none hl _
      have hcard : (({v} : Finset V).erase v).card = 0 := by simp
      have hR : Remove (Put mm k v) k v = mm := by
        rw [Remove_found_last hlookP hcard, hP]
        show (⟨mapErase (mm.m ++ [(k, {v})]) k⟩ : MultiMap K V) = mm
        rw [mapErase_append hl]
      refine ⟨?_, ?_, ?_⟩
      · rw [hR]
        simp [Contains, hl]
      · rw [hR]
        simp [ContainsKey, Contains, hl]
      · intro _
        rw [hR]
  | some s =>
      have hP : Put mm k v = ⟨mapAdjust (insert v) mm.m k⟩ := Put_some v hl
      have hlookP : mapLookup (Put mm k v).m k = some (insert v s) := by
        rw [hP]
        show mapLookup (mapAdjust (insert v) mm.m k) k = some (insert v s)
        rw [mapLookup_adjust, hl, Option.map]
      have hsmem : s.Nonempty := hne _ (mapLookup_mem hl)
      by_cases hc : (s.erase v).card = 0
      · have hcard : (((insert v s) : Finset V).erase v).card = 0 := by
          rw [erase_insert_self]
          exact hc
        have hsub : s.erase v = ∅ := Finset.card_eq_zero.mp hc
        have hRm : (Remove (Put mm k v) k v).m = mapErase mm.m k := by
          rw [Remove_found_last hlookP hcard, hP]
          exact mapErase_mapAdjust
        have hlookR : mapLookup (Remove (Put mm k v) k v).m k = none := by
          rw [hRm]
          exact mapLookup_erase_self hnd
        refine ⟨?_, ?_, ?_⟩
        · simp [Contains, hlookR]
        · simp only [ContainsKey, hlookR, Option.isSome_none]
          constructor
          · intro hfalse
            simp at hfalse
          · rintro ⟨w, hwv, hw⟩
            unfold Contains at hw
            rw [hl] at hw
            simp only [decide_eq_true_eq] at hw
            have : w ∈ s.erase v := Finset.mem_erase.mpr ⟨hwv, hw⟩
            rw [hsub] at this
            exact absurd this (Finset.not_mem_empty w)
        · intro hcontf
          unfold Contains at hcontf
          rw [hl] at hcontf
          simp only [decide_eq_false_iff_not] at hcontf
          have : s.erase v = s := Finset.erase_eq_of_not_mem hcontf
          rw [this] at hsub
          exact absurd (hsub ▸ hsmem) (by simp)
      · have hcard : (((insert v s) : Finset V).erase v).card ≠ 0 := by
          rw [erase_insert_self]
          exact hc
        have hRm : (Remove (Put mm k v) k v).m =
            mapAdjust (fun t => t.erase v) (Put mm k v).m k := by
          rw [Remove_found_keep hlookP hcard]
        have hlookR : mapLookup (Remove (Put mm k v) k v).m k = some (s.erase v) := by
          rw [hRm, mapLookup_adjust, hlookP, Option.map, erase_insert_self]
        refine ⟨?_, ?_, ?_⟩
        · simp [Contains, hlookR]
        · simp only [ContainsKey, hlookR, Option.isSome_some, true_iff]
          obtain ⟨w, hw⟩ := Finset.card_pos.mp (Nat.pos_of_ne_zero hc)
          obtain ⟨hwv, hws⟩ := Finset.mem_erase.mp hw
          refine ⟨w, hwv, ?_⟩
          simp [Contains, hl, hws]
        · intro _
          simp [ContainsKey, hlookR, hl]

/-- C3 amended witness: with key 1 holding only value 5 and pair (1, 7)
absent, `Put(1, 7)` then `Remove(1, 7)` makes `Contains(1, 7)` false. -/
theorem c3_put_remove_amended_witness :
    Contains (Remove (Put (Put (New : MultiMap ℕ ℕ) 1 5) 1 7) 1 7) 1 7 = false :=
  (c3_put_remove_amended (Put New 1 5) 1 7 (by unfold KeysNodup; decide)
    (by unfold ValueSetsNonempty; decide)).1

end SetMultiMap
